import Mathlib

/-!
Shallow embedding of the polytope core of the repository
(`src/polytope/mod.rs`): the ranked-poset data model (`Element`,
`ElementList`, `Abstract` over a rank-indexed container), its validity
predicates (`has_min_max_elements`, `check_incidences`, `is_dyadic`), the
dual and product algorithms, the element-vertex extraction, and the
concrete (geometric) layer used by the reciprocal-dual operation.

Conventions of the embedding:
* Rust `isize` ranks are Lean `Int`; the rank-indexed container `RankVec`
  stores rank `r` at list position `r + 1` (`RankVec::get` returns `None`
  for `r < -1` or past the end, which we model with `List.getD` on the
  shifted index).
* Rust `Vec` indexing that would panic out of range is modelled totally
  with `List.getD`/`List.set` (out-of-range reads give a default,
  out-of-range writes no-op); every theorem below carries hypotheses
  under which the Rust code performs no such out-of-range access, so the
  model and the source agree on the quantified inputs.  The one
  exception is `Abstract::product`, whose two post-loop fix-up writes
  (`product[-1]`, `product[0]`, `product[rank]`) *can* go out of range
  for legitimate inputs; there the embedding returns `Option` and yields
  `none` exactly when the Rust code would panic.
-/

/-- A single element of an abstract polytope: the indices of its
subelements one rank below (`struct Element { subs: Vec<usize> }`). -/
structure Element where
  subs : List Nat
deriving DecidableEq, Repr

/-- A list of elements of one common rank (`struct ElementList(Vec<Element>)`). -/
abbrev ElementList := List Element

/-- Models `Element::min`: a minimal element, with no subelements. -/
def Element.min : Element := ⟨[]⟩

/-- Models `Element::max(facet_count)`: a maximal element adjacent to the given
number of facets, `subs = [0, 1, …, facet_count-1]`. -/
def Element.max (facet_count : Nat) : Element := ⟨List.range facet_count⟩

/-- Models `ElementList::min()`: the element list holding the single minimal element. -/
def ElementList.minList : ElementList := [Element.min]

/-- Models `ElementList::max(facet_count)`: the element list holding the single
maximal element. -/
def ElementList.maxList (facet_count : Nat) : ElementList := [Element.max facet_count]

/-- Models `ElementList::vertices(vertex_count)`: `vertex_count` elements, each
with the single minimal element (index 0) as its only subelement. -/
def ElementList.vertices (vertex_count : Nat) : ElementList :=
  List.replicate vertex_count ⟨[0]⟩

/-- Models `Abstract(RankVec<ElementList>)`: position `k` of `lists` stores the
elements of rank `k - 1` (the `RankVec` `+1` offset made explicit). -/
structure Abstract where
  lists : List ElementList
deriving DecidableEq, Repr

/-- Models `RankVec::rank` / `Abstract::rank`: length minus 2 (as `isize`). -/
def Abstract.rank (p : Abstract) : Int := (p.lists.length : Int) - 2

/-- The element list of rank `r`, empty when `r` is out of range
(`RankVec::get` returning `None`). -/
def Abstract.listAt (p : Abstract) (r : Int) : ElementList :=
  if r < -1 then [] else p.lists.getD (r + 1).toNat []

/-- Models `Abstract::el_count`: number of elements of a given rank (0 when the
rank is out of range). -/
def Abstract.el_count (p : Abstract) (r : Int) : Nat := (p.listAt r).length

/-- Models `Abstract::el_counts`: the element counts of every stored rank, in
rank order (rank −1 first). -/
def Abstract.el_counts (p : Abstract) : List Nat := p.lists.map List.length

/-- The integers from `lo` to `hi` inclusive (a Rust `lo..=hi` range). -/
def intRange (lo hi : Int) : List Int :=
  (List.range (hi + 1 - lo).toNat).map (fun (k : Nat) => lo + (k : Int))

/-- Models `b as isize` for a Rust `bool`. -/
def boolInt (b : Bool) : Int := if b then 1 else 0

/-- Models `Polytope::nullitope()` for `Abstract`: the single minimal element. -/
def Abstract.nullitope : Abstract := ⟨[ElementList.minList]⟩

/-- Models `Polytope::point()` for `Abstract`. -/
def Abstract.point : Abstract := ⟨[ElementList.minList, ElementList.maxList 1]⟩

/-- Models `Polytope::dyad()` for `Abstract`. -/
def Abstract.dyad : Abstract :=
  ⟨[ElementList.minList, ElementList.vertices 2, ElementList.maxList 2]⟩

/-- Models `Polytope::polygon(n)` for `Abstract`: `n` vertices and `n` edges,
edge `i` (for `i = 1, …, n` in the source loop, here `i+1` for
`i ∈ range n`) having subelements `[i % n, (i+1) % n]`.  The source
asserts `n ≥ 2`; theorems about `polygon` carry that hypothesis. -/
def Abstract.polygon (n : Nat) : Abstract :=
  ⟨[ElementList.minList,
    List.replicate n ⟨[0]⟩,
    (List.range n).map (fun i => Element.mk [(i + 1) % n, (i + 2) % n]),
    ElementList.maxList n]⟩

/-- Models `Abstract::has_min_max_elements`: exactly one element at rank −1 and
exactly one at the top rank. -/
def Abstract.has_min_max_elements (p : Abstract) : Bool :=
  p.el_count (-1) == 1 && p.el_count p.rank == 1

/-- Models `Abstract::check_incidences`: for every rank `r` from −1 up to (and
excluding) the top rank, every subelement index of every element of rank
`r` resolves to an element of rank `r - 1`.  (At rank −1 the source
would index `self[-2]` and panic if a subelement existed there; the
model returns `false` instead, and every theorem stays within inputs
where rank −1 elements have no subelements.) -/
def Abstract.check_incidences (p : Abstract) : Bool :=
  (intRange (-1) (p.rank - 1)).all (fun r =>
    (p.listAt r).all (fun el =>
      el.subs.all (fun s => s < p.el_count (r - 1))))

/-- The same referential-integrity check extended to the maximal rank,
which `check_incidences` skips (its loop stops before the top rank). -/
def Abstract.check_incidences_with_top (p : Abstract) : Bool :=
  p.check_incidences &&
    (p.listAt p.rank).all (fun el =>
      el.subs.all (fun s => s < p.el_count (p.rank - 1)))

/-- Models `Abstract::is_dyadic`: for every rank `r` strictly between 0 and the
top rank, for every element of rank `r`, the multiset of subelements of
its subelements contains every member exactly twice.  (The source counts
with a `HashMap`, aborting at a third occurrence and rejecting a single
occurrence at the end; that is equivalent to every occurring value
having count exactly 2.) -/
def Abstract.is_dyadic (p : Abstract) : Bool :=
  (intRange 1 (p.rank - 1)).all (fun r =>
    (p.listAt r).all (fun el =>
      let sub_subs := el.subs.flatMap (fun s => ((p.listAt (r - 1)).getD s ⟨[]⟩).subs)
      sub_subs.all (fun x => sub_subs.count x == 2)))

/-- One step of `Abstract::dual_mut`: transpose the incidence relation
between `cur` (rank `r`) and the rank below of length `prevLen`.  The
source clears every rank-(r−1) subelement list then pushes, for each
`(idx, el)` of `cur` in order and each occurrence of `sub` in `el.subs`,
the superelement index `idx` onto element `sub`'s list. -/
def transposeAt (cur : ElementList) (prevLen : Nat) : ElementList :=
  (List.range prevLen).map (fun j =>
    ⟨(List.range cur.length).flatMap (fun idx =>
      (cur.getD idx ⟨[]⟩).subs.filterMap (fun s => if s = j then some idx else none))⟩)

/-- Models `Abstract::dual_mut`: for `r = 0, …, rank` replace the subelements of
rank `r - 1` by the transposed incidences read from rank `r`, then clear
the subelements of the maximal element (`self[rank][0]`), and reverse the
rank order. -/
def Abstract.dual_mut (p : Abstract) : Abstract :=
  let n := p.lists.length
  ⟨((List.range n).map (fun k =>
      if k + 1 < n then
        transposeAt (p.lists.getD (k + 1) []) (p.lists.getD k []).length
      else
        (p.lists.getD k []).set 0 ⟨[]⟩)).reverse⟩

/-- Models `Abstract::dual`: the dual of a clone (same result as `dual_mut`). -/
def Abstract.dual (p : Abstract) : Abstract := p.dual_mut

/-- The `p_low`/`q_low` bound of `Abstract::product`: `-(min as isize)`. -/
def prodLow (mn : Bool) : Int := -(boolInt mn)

/-- The `p_hi` bound of `Abstract::product`: `p.rank() - (!max as isize)`
(and symmetrically `q_hi` for the second factor). -/
def prodHi (rank : Int) (mx : Bool) : Int := rank - boolInt (!mx)

/-- The rank of the product:
`p.rank + q.rank + 1 - (!min as isize) - (!max as isize)`. -/
def prodRank (p q : Abstract) (mn mx : Bool) : Int :=
  p.rank + q.rank + 1 - boolInt (!mn) - boolInt (!mx)

/-- The `offset_memo` table of `Abstract::product`, as a recursive
function: `offset_memo i j` is the cell the source stores at row `i`,
column `j` (rank pair `(p_low + i, q_low + j)`), defined by
`(if i == 0 || q_low + j == q_hi then 0 else memo[i-1][j+1])
 + p.el_count(p_low+i) * q.el_count(q_low+j)`. -/
def offsetMemo (p q : Abstract) (p_low q_low q_hi : Int) : Nat → Nat → Nat
  | 0, j => p.el_count p_low * q.el_count (q_low + j)
  | i + 1, j =>
    (if q_low + (j : Int) = q_hi then 0
     else offsetMemo p q p_low q_low q_hi i (j + 1)) +
    p.el_count (p_low + (i : Int) + 1) * q.el_count (q_low + j)

/-- The `offset` closure of `Abstract::product`: reads
`offset_memo[p_rank - p_low][q_rank - q_low]`, returning 0 when either
index is out of range of the table (the `usize` casts of negative ranks
and the `get … unwrap_or(0)` of the source). -/
def prodOffset (p q : Abstract) (mn mx : Bool) (pr qr : Int) : Nat :=
  let p_low := prodLow mn
  let p_hi := prodHi p.rank mx
  let q_low := prodLow mn
  let q_hi := prodHi q.rank mx
  if p_low ≤ pr ∧ pr ≤ p_hi ∧ q_low ≤ qr ∧ qr ≤ q_hi then
    offsetMemo p q p_low q_low q_hi (pr - p_low).toNat (qr - q_low).toNat
  else 0

/-- The `get_element_index` closure of `Abstract::product`:
`offset(p_rank - 1, q_rank + 1) + p_idx * q.el_count(q_rank) + q_idx`. -/
def get_element_index (p q : Abstract) (mn mx : Bool)
    (pr : Int) (p_idx : Nat) (qr : Int) (q_idx : Nat) : Nat :=
  prodOffset p q mn mx (pr - 1) (qr + 1) + p_idx * q.el_count qr + q_idx

/-- The subelement list built by the element loop of `Abstract::product`
for the product of element `(p_idx, p_el)` of rank `p_els_rank` with
element `(q_idx, q_el)` of rank `q_els_rank`: products of `p_el`'s
subelements with `q_el` (skipped at `p_els_rank == 0` unless `min`),
then products of `q_el`'s subelements with `p_el` (symmetrically). -/
def prodSubs (p q : Abstract) (mn mx : Bool) (p_els_rank q_els_rank : Int)
    (p_idx q_idx : Nat) (p_el q_el : Element) : Element :=
  ⟨(if p_els_rank ≠ 0 ∨ mn then
      p_el.subs.map (fun s => get_element_index p q mn mx (p_els_rank - 1) s q_els_rank q_idx)
    else []) ++
   (if q_els_rank ≠ 0 ∨ mn then
      q_el.subs.map (fun s => get_element_index p q mn mx p_els_rank p_idx (q_els_rank - 1) s)
    else [])⟩

/-- The element list the loop of `Abstract::product` pushes at product
rank `prod_rank`: for each `p_els_rank` from `p_low` to `p_hi` whose
partner rank `q_els_rank = prod_rank - p_els_rank - (min as isize)` is
within `[q_low, q_hi]`, every pair of a rank-`p_els_rank` element of `p`
with a rank-`q_els_rank` element of `q`, in lexicographic index order. -/
def prodListAt (p q : Abstract) (mn mx : Bool) (prod_rank : Int) : ElementList :=
  (intRange (prodLow mn) (prodHi p.rank mx)).flatMap (fun p_els_rank =>
    if prodLow mn ≤ prod_rank - p_els_rank - boolInt mn ∧
        prod_rank - p_els_rank - boolInt mn ≤ prodHi q.rank mx then
      (List.range (p.el_count p_els_rank)).flatMap (fun p_idx =>
        (List.range (q.el_count (prod_rank - p_els_rank - boolInt mn))).map (fun q_idx =>
          prodSubs p q mn mx p_els_rank (prod_rank - p_els_rank - boolInt mn) p_idx q_idx
            ((p.listAt p_els_rank).getD p_idx ⟨[]⟩)
            ((q.listAt (prod_rank - p_els_rank - boolInt mn)).getD q_idx ⟨[]⟩)))
    else [])

/-- The rank lists filled by the element loop of `Abstract::product`
(the source pushes `rank + 2` empty lists and then fills them in
rank-major order). -/
def prodBase (p q : Abstract) (mn mx : Bool) : List ElementList :=
  (intRange (-1) (prodRank p q mn mx)).map (prodListAt p q mn mx)

/-- The `!min` fix-up of `Abstract::product`: overwrite
`product[-1]` with the minimal element and `product[0]` with
`vertices(p.el_count(0) * q.el_count(0))`. -/
def prodFixMin (p q : Abstract) (mn mx : Bool) : List ElementList :=
  if mn then prodBase p q mn mx
  else
    ((prodBase p q mn mx).set 0 ElementList.minList).set 1
      (ElementList.vertices (p.el_count 0 * q.el_count 0))

/-- The `!max` fix-up of `Abstract::product`: overwrite `product[rank]`
with a maximal element adjacent to all `el_count(rank - 1)` facets
(counted after the `!min` fix-up, as in the source). -/
def prodFixMax (p q : Abstract) (mn mx : Bool) : List ElementList :=
  if mx then prodFixMin p q mn mx
  else
    (prodFixMin p q mn mx).set (prodRank p q mn mx + 1).toNat
      (ElementList.maxList
        ((Abstract.mk (prodFixMin p q mn mx)).el_count (prodRank p q mn mx - 1)))

/-- Models `Abstract::product(p, q, min, max)`.  The source builds `rank + 2`
empty rank lists, fills them with the element loop, and then — when a
flag is off — overwrites the boundary lists:
`product[-1] = min`, `product[0] = vertices(|p₀|·|q₀|)` when `!min`, and
`product[rank] = max(count(rank-1))` when `!max`.  Those overwrites index
the backing `Vec` unconditionally and panic when the slot does not exist,
which happens exactly when `rank < -1`, or `rank < 0` with `!min`; the
embedding returns `none` in that case. -/
def Abstract.product (p q : Abstract) (mn mx : Bool) : Option Abstract :=
  let rank := prodRank p q mn mx
  if (!mn && decide (rank < 0)) || (!mx && decide (rank < -1)) then none
  else some ⟨prodFixMax p q mn mx⟩

/-- Models `Polytope::duopyramid` for `Abstract`: product with both flags. -/
def Abstract.duopyramid (p q : Abstract) : Option Abstract := p.product q true true

/-- Models `Polytope::duoprism` for `Abstract`: product without `min`. -/
def Abstract.duoprism (p q : Abstract) : Option Abstract := p.product q false true

/-- Models `Polytope::duotegum` for `Abstract`: product without `max`. -/
def Abstract.duotegum (p q : Abstract) : Option Abstract := p.product q true false

/-- Models `Polytope::duocomb` for `Abstract`: product with neither flag. -/
def Abstract.duocomb (p q : Abstract) : Option Abstract := p.product q false false

/-- Models `Polytope::multiproduct`: the identity for no factors, the factor
itself for one, and otherwise the binary product of the first factor with
the product of the rest (a right fold).  Failure of any binary product
(a Rust panic) propagates through the `Option`. -/
def multiproduct (product : Abstract → Abstract → Option Abstract)
    (factors : List Abstract) (identity : Abstract) : Option Abstract :=
  match factors with
  | [] => some identity
  | [f] => some f
  | f :: rest => (multiproduct product rest identity).bind (product f)

/-- Models `Polytope::multipyramid`: fold of `duopyramid` with identity `nullitope`. -/
def Abstract.multipyramid (factors : List Abstract) : Option Abstract :=
  multiproduct Abstract.duopyramid factors Abstract.nullitope

/-- Models `Polytope::multiprism`: fold of `duoprism` with identity `point`. -/
def Abstract.multiprism (factors : List Abstract) : Option Abstract :=
  multiproduct Abstract.duoprism factors Abstract.point

/-- Models `Polytope::multitegum`: fold of `duotegum` with identity `point`. -/
def Abstract.multitegum (factors : List Abstract) : Option Abstract :=
  multiproduct Abstract.duotegum factors Abstract.point

/-- Models `Polytope::multicomb`: fold of `duocomb` with identity `point`. -/
def Abstract.multicomb (factors : List Abstract) : Option Abstract :=
  multiproduct Abstract.duocomb factors Abstract.point

/-- Models `Polytope::simplex(rank)`: multipyramid of `rank + 1` points. -/
def Abstract.simplex (rank : Int) : Option Abstract :=
  Abstract.multipyramid (List.replicate (rank + 1).toNat Abstract.point)

/-- Models `Polytope::hypercube(rank)`: the nullitope at rank −1, otherwise the
multiprism of `rank` dyads. -/
def Abstract.hypercube (rank : Int) : Option Abstract :=
  if rank = -1 then some Abstract.nullitope
  else Abstract.multiprism (List.replicate rank.toNat Abstract.dyad)

/-- Models `Polytope::orthoplex(rank)`: the nullitope at rank −1, otherwise the
multitegum of `rank` dyads. -/
def Abstract.orthoplex (rank : Int) : Option Abstract :=
  if rank = -1 then some Abstract.nullitope
  else Abstract.multitegum (List.replicate rank.toNat Abstract.dyad)

/-- The loop of `Abstract::get_element_vertices`: starting from the index
set `indices` at rank `fuel` (the loop runs `r = rank, rank-1, …, 1`),
replace the set by the union of the subelements of its members, one rank
at a time, deduplicated through a hash set at every step (order of the
deduplicated list is a modelling choice; the source's `HashSet` iteration
order is arbitrary, and every claim about the result is order-insensitive). -/
def gevLoop (p : Abstract) : Nat → List Nat → List Nat
  | 0, indices => indices
  | r + 1, indices =>
    gevLoop p r
      ((indices.flatMap (fun idx => ((p.listAt ((r : Int) + 1)).getD idx ⟨[]⟩).subs)).dedup)

/-- Models `Abstract::get_element_vertices(rank, idx)`: `None` for the nullitope
rank −1, otherwise the vertex indices reached from element `idx` of the
given rank by repeatedly taking subelements down to rank 0. -/
def Abstract.get_element_vertices (p : Abstract) (rank : Int) (idx : Nat) : Option (List Nat) :=
  if rank = -1 then none
  else some (gevLoop p rank.toNat [idx])

/-- Reachability: `v` is reachable from element `idx` of rank `fuel` (ranks counted as
`fuel`, …, 1, 0) through a chain of subelement memberships; at fuel 0 the
reachable vertex is the element itself.  This is the specification
against which `get_element_vertices` is compared. -/
def reach (p : Abstract) : Nat → Nat → Nat → Prop
  | 0, idx, v => v = idx
  | r + 1, idx, v =>
    ∃ s ∈ ((p.listAt ((r : Int) + 1)).getD idx ⟨[]⟩).subs, reach p r s v

-- ### Concrete (geometric) layer

/-- A point of Euclidean space (`geometry::Point`), with exact rational
coordinates standing in for the source's `f64` entries. -/
abbrev Point := List ℚ

/-- Coordinatewise difference of points (`v - o`). -/
def pSub (v o : Point) : Point := List.zipWith (fun a b => a - b) v o

/-- Coordinatewise sum of points (`v + o`). -/
def pAdd (v o : Point) : Point := List.zipWith (fun a b => a + b) v o

/-- Scalar multiple of a point (`k * v`, also modelling `v / s` as
`(1/s) * v`). -/
def pSmul (k : ℚ) (v : Point) : Point := v.map (fun a => k * a)

/-- Models `norm_squared` of a point. -/
def normSq (v : Point) : ℚ := (v.map (fun a => a * a)).sum

/-- The `EPS` tolerance of the source, `1e-9`. -/
def EPS : ℚ := 1 / 1000000000

/-- Models `geometry::Hypersphere`: a reciprocation sphere. -/
structure Hypersphere where
  center : Point
  radius : ℚ

/-- Models `Concrete`: vertex coordinates plus the underlying abstract polytope. -/
structure Concrete where
  vertices : List Point
  abs : Abstract

/-- Models `Concrete::rank`. -/
def Concrete.rank (c : Concrete) : Int := c.abs.rank

/-- Models `Concrete::el_count` (delegated through `Deref` in the source). -/
def Concrete.el_count (c : Concrete) (r : Int) : Nat := c.abs.el_count r

/-- Models `Concrete::get_element_vertices`: the coordinates of the vertices of
an element, mapped through the abstract index set. -/
def Concrete.get_element_vertices (c : Concrete) (rank : Int) (idx : Nat) :
    Option (List Point) :=
  (c.abs.get_element_vertices rank idx).map (fun l => l.map (fun v => c.vertices.getD v []))

/-- The reciprocation loop of `Concrete::dual_mut_with_sphere`: each
projected point `v` is replaced by `o + (v - o)/‖v - o‖²`, and the loop
returns early with `None` as soon as `‖v - o‖² < EPS` (a facet passing
through the reciprocation center). -/
def reciprocate (o : Point) : List Point → Option (List Point)
  | [] => some []
  | v :: rest =>
    if normSq (pSub v o) < EPS then none
    else
      match reciprocate o rest with
      | none => none
      | some tl => some (pAdd (pSmul (1 / normSq (pSub v o)) (pSub v o)) o :: tl)

/-- The facet projections computed by `Concrete::dual_mut_with_sphere`
before reciprocating: the projection of the (already projected)
reciprocation center `o` onto each facet's supporting subspace when
`rank ≥ 2`, or the vertices themselves when the polytope is 1-dimensional.
The subspace machinery (`Subspace::from_points`/`project`) lives in the
repository's geometry module, which is not part of the provided sources;
it is abstracted as the function argument `proj`, with
`proj pts x` standing for `Subspace::from_points(pts).project(&x)`. -/
def facetProjections (proj : List Point → Point → Point) (self : Concrete)
    (o : Point) : List Point :=
  if 2 ≤ self.rank then
    (List.range (self.el_count (self.rank - 1))).map (fun idx =>
      proj ((self.get_element_vertices (self.rank - 1) idx).getD []) o)
  else self.vertices

/-- Models `Concrete::dual_mut_with_sphere`, statement by statement.  The result
is the final state of `self` paired with the success flag (`Some`/`None`
of the source).  A polytope of rank < 1 is returned unchanged; otherwise
the center is projected onto the polytope's hyperplane, the projections
onto each facet are computed into a local list, the reciprocation loop
runs on that local list, and only on success are `self.vertices` and
`self.abs` assigned. -/
def Concrete.dual_mut_with_sphere (proj : List Point → Point → Point)
    (self : Concrete) (sphere : Hypersphere) : Concrete × Bool :=
  if self.rank < 1 then (self, true)
  else
    match reciprocate (proj self.vertices sphere.center)
        (facetProjections proj self (proj self.vertices sphere.center)) with
    | none => (self, false)
    | some projections => ({ vertices := projections, abs := self.abs.dual_mut }, true)

/-- Models `Concrete::dual_with_sphere`: clone, run the in-place dual, return
`None` on failure. -/
def Concrete.dual_with_sphere (proj : List Point → Point → Point)
    (self : Concrete) (sphere : Hypersphere) : Option Concrete :=
  let r := Concrete.dual_mut_with_sphere proj self sphere
  if r.2 then some r.1 else none

-- ### Toolbox: integer ranges, list access, and predicate unfoldings

theorem intRange_of_lt {lo hi : Int} (h : hi < lo) : intRange lo hi = [] := by
  have hn : (hi + 1 - lo).toNat = 0 := by omega
  simp [intRange, hn]

theorem intRange_length (lo hi : Int) : (intRange lo hi).length = (hi + 1 - lo).toNat := by
  simp [intRange]

theorem intRange_cons {lo hi : Int} (h : lo ≤ hi) :
    intRange lo hi = lo :: intRange (lo + 1) hi := by
  have hn : (hi + 1 - lo).toNat = (hi + 1 - (lo + 1)).toNat + 1 := by omega
  rw [intRange, hn, List.range_succ_eq_map]
  simp only [List.map_cons, Nat.cast_zero, add_zero, List.map_map, intRange]
  congr 1
  apply List.map_congr_left
  intro k _
  simp only [Function.comp_apply]
  push_cast
  ring

theorem intRange_concat {lo hi : Int} (h : lo ≤ hi) :
    intRange lo hi = intRange lo (hi - 1) ++ [hi] := by
  have hn : (hi + 1 - lo).toNat = (hi - 1 + 1 - lo).toNat + 1 := by omega
  rw [intRange, hn, List.range_succ, List.map_append]
  have h2 : lo + (((hi - 1 + 1 - lo).toNat : Nat) : Int) = hi := by omega
  simp only [List.map_cons, List.map_nil, h2]
  rfl

theorem mem_intRange {a lo hi : Int} : a ∈ intRange lo hi ↔ lo ≤ a ∧ a ≤ hi := by
  simp only [intRange, List.mem_map, List.mem_range]
  constructor
  · rintro ⟨k, hk, rfl⟩
    omega
  · rintro ⟨h1, h2⟩
    exact ⟨(a - lo).toNat, by omega, by omega⟩

theorem intRange_split {lo mid hi : Int} (h1 : lo ≤ mid) (h2 : mid ≤ hi + 1) :
    intRange lo hi = intRange lo (mid - 1) ++ intRange mid hi := by
  have hn : (hi + 1 - lo).toNat = (mid - 1 + 1 - lo).toNat + (hi + 1 - mid).toNat := by omega
  rw [intRange, hn, List.range_add, List.map_append, List.map_map]
  congr 1
  rw [intRange]
  congr 1
  funext k
  simp only [Function.comp_apply]
  push_cast
  omega

theorem intRange_map_getD {α : Type} {lo hi : Int} {k : Nat} (f : Int → α) (d : α)
    (h : k < (hi + 1 - lo).toNat) :
    ((intRange lo hi).map f).getD k d = f (lo + k) := by
  rw [List.getD_eq_getElem?_getD, intRange, List.map_map, List.getElem?_map,
    List.getElem?_range h]
  rfl

theorem sum_map_const_nat {α : Type} (l : List α) (c : Nat) :
    (l.map (fun _ => c)).sum = l.length * c := by
  induction l with
  | nil => simp
  | cons a t ih => simp [ih, Nat.succ_mul, Nat.add_comm]

theorem getD_set_self {α : Type} {l : List α} {i : Nat} (h : i < l.length) (a d : α) :
    (l.set i a).getD i d = a := by
  rw [List.getD_eq_getElem?_getD, List.getElem?_set_self h]
  rfl

theorem getD_set_ne {α : Type} {l : List α} {i j : Nat} (h : i ≠ j) (a d : α) :
    (l.set i a).getD j d = l.getD j d := by
  rw [List.getD_eq_getElem?_getD, List.getElem?_set_ne h, ← List.getD_eq_getElem?_getD]

theorem reverse_map_range_getD {α : Type} (n k : Nat) (f : Nat → α) (d : α) (h : k < n) :
    (((List.range n).map f).reverse).getD k d = f (n - 1 - k) := by
  have hlen : (((List.range n).map f)).length = n := by simp
  rw [List.getD_eq_getElem?_getD, List.getElem?_reverse (by simp [h]), hlen,
    List.getElem?_map, List.getElem?_range (by omega)]
  rfl

theorem getD_replicate_of_lt {α : Type} {n i : Nat} (h : i < n) (a d : α) :
    (List.replicate n a).getD i d = a := by
  rw [List.getD_eq_getElem?_getD, List.getElem?_replicate]
  simp [h]

theorem listAt_of_lt_neg {p : Abstract} {r : Int} (h : r < -1) : p.listAt r = [] := by
  simp [Abstract.listAt, h]

theorem listAt_of_rank_lt {p : Abstract} {r : Int} (h : p.rank < r) : p.listAt r = [] := by
  rw [Abstract.listAt]
  by_cases hr : r < -1
  · simp [hr]
  · rw [if_neg hr, List.getD_eq_getElem?_getD, List.getElem?_eq_none]
    · rfl
    · rw [Abstract.rank] at h
      omega

theorem el_count_neg_two (p : Abstract) : p.el_count (-2) = 0 := by
  rw [Abstract.el_count, listAt_of_lt_neg (by omega)]
  rfl

theorem check_incidences_spec {p : Abstract} (h : p.check_incidences = true)
    {r : Int} (h1 : -1 ≤ r) (h2 : r ≤ p.rank - 1) :
    ∀ el ∈ p.listAt r, ∀ s ∈ el.subs, s < p.el_count (r - 1) := by
  rw [Abstract.check_incidences, List.all_eq_true] at h
  have hr := h r (mem_intRange.mpr ⟨h1, h2⟩)
  rw [List.all_eq_true] at hr
  intro el hel s hs
  have he := hr el hel
  rw [List.all_eq_true] at he
  exact of_decide_eq_true (he s hs)

/-- Referential integrity with the top rank included, as a proposition
over all ranks: out-of-range ranks hold vacuously because their element
lists are empty. -/
theorem check_incidences_with_top_spec {p : Abstract}
    (h : p.check_incidences_with_top = true) :
    ∀ (r : Int), ∀ el ∈ p.listAt r, ∀ s ∈ el.subs, s < p.el_count (r - 1) := by
  rw [Abstract.check_incidences_with_top, Bool.and_eq_true] at h
  obtain ⟨h1, h2⟩ := h
  intro r el hel s hs
  by_cases hlo : r < -1
  · rw [listAt_of_lt_neg hlo] at hel
    simp at hel
  · by_cases hhi : p.rank < r
    · rw [listAt_of_rank_lt hhi] at hel
      simp at hel
    · by_cases htop : r = p.rank
      · subst htop
        rw [List.all_eq_true] at h2
        have he := h2 el hel
        rw [List.all_eq_true] at he
        exact of_decide_eq_true (he s hs)
      · exact check_incidences_spec h1 (by omega) (by omega) el hel s hs

/-- Elements of rank −1 have no subelements under referential integrity
(their subelement indices would have to resolve at rank −2). -/
theorem subs_nil_at_bottom {p : Abstract}
    (h : p.check_incidences_with_top = true) :
    ∀ el ∈ p.listAt (-1), el.subs = [] := by
  intro el hel
  cases hsubs : el.subs with
  | nil => rfl
  | cons s t =>
    have := check_incidences_with_top_spec h (-1) el hel s (by rw [hsubs]; exact List.mem_cons_self s t)
    rw [show (-1 : Int) - 1 = -2 by omega, el_count_neg_two] at this
    omega

theorem rank_nonneg_of_min {p : Abstract} (h : p.has_min_max_elements = true) :
    -1 ≤ p.rank := by
  rw [Abstract.has_min_max_elements, Bool.and_eq_true] at h
  have h1 := h.1
  rw [Nat.beq_eq_true_eq] at h1
  rw [Abstract.rank]
  by_contra hc
  rw [Abstract.el_count, listAt_of_rank_lt (by rw [Abstract.rank]; omega)] at h1
  simp at h1

-- ### Shared facts about the product construction

theorem product_some_elim {p q : Abstract} {mn mx : Bool} {res : Abstract}
    (h : Abstract.product p q mn mx = some res) :
    res = ⟨prodFixMax p q mn mx⟩ ∧
      (mn = true ∨ 0 ≤ prodRank p q mn mx) ∧
      (mx = true ∨ -1 ≤ prodRank p q mn mx) := by
  rw [Abstract.product] at h
  by_cases hc :
      ((!mn && decide (prodRank p q mn mx < 0)) || (!mx && decide (prodRank p q mn mx < -1))) = true
  · rw [if_pos hc] at h
    cases h
  · rw [if_neg hc] at h
    rw [Bool.or_eq_true] at hc
    push_neg at hc
    obtain ⟨hc1, hc2⟩ := hc
    refine ⟨(Option.some_injective _ h).symm, ?_, ?_⟩
    · by_cases hm : mn = true
      · exact Or.inl hm
      · right
        rw [Bool.not_eq_true] at hm
        subst hm
        have hlt : ¬ (prodRank p q false mx < 0) := fun hlt => hc1 (by simp [hlt])
        omega
    · by_cases hx : mx = true
      · exact Or.inl hx
      · right
        rw [Bool.not_eq_true] at hx
        subst hx
        have hlt : ¬ (prodRank p q mn false < -1) := fun hlt => hc2 (by simp [hlt])
        omega

theorem prodFixMax_length (p q : Abstract) (mn mx : Bool) :
    (prodFixMax p q mn mx).length = (prodRank p q mn mx + 2).toNat := by
  rw [prodFixMax, prodFixMin, prodBase]
  rcases mn <;> rcases mx <;>
    simp [List.length_set, intRange_length] <;> omega

theorem product_rank_eq {p q : Abstract} {mn mx : Bool} {res : Abstract}
    (h : Abstract.product p q mn mx = some res)
    (hR : -1 ≤ prodRank p q mn mx) :
    res.rank = prodRank p q mn mx := by
  obtain ⟨hres, -, -⟩ := product_some_elim h
  rw [hres, Abstract.rank]
  show ((prodFixMax p q mn mx).length : Int) - 2 = _
  rw [prodFixMax_length]
  omega

-- ### C2: the product rank formula

/-- C2 (amended): for factors of rank ≥ −1, whenever the product
construction completes without an out-of-range write (the `Option` is
`some`), the rank of the result is
`rank(p) + rank(q) + 1 - (!min as isize) - (!max as isize)`.  (As stated
over *every* pair and flag choice the claim fails: see
`duocomb_point_point_none`.) -/
theorem product_rank_formula (p q : Abstract) (mn mx : Bool) (res : Abstract)
    (hp : -1 ≤ p.rank) (hq : -1 ≤ q.rank)
    (h : Abstract.product p q mn mx = some res) :
    res.rank = p.rank + q.rank + 1 - boolInt (!mn) - boolInt (!mx) := by
  have hR : -1 ≤ prodRank p q mn mx := by
    obtain ⟨-, h1, h2⟩ := product_some_elim h
    rcases h1 with h1 | h1
    · rcases h2 with h2 | h2
      · rw [prodRank, h1, h2]
        simp only [Bool.not_true, boolInt, if_neg Bool.false_ne_true]
        omega
      · exact h2
    · omega
  rw [product_rank_eq h hR, prodRank]

/-- C2 counterexample: with both flags off (`duocomb`) the product of two
points never returns: the computed rank is −1, and the source's
`product[0] = ElementList::vertices(..)` fix-up indexes past the end of
the one-slot backing vector and panics, modelled as `none`. -/
theorem duocomb_point_point_none :
    Abstract.product Abstract.point Abstract.point false false = none := by decide

/-- C2 witness: a completing product (`duoprism` of two dyads) with rank
`1 + 1 + 1 - 1 - 0 = 2`. -/
theorem product_rank_formula_witness :
    (Abstract.mk (prodFixMax Abstract.dyad Abstract.dyad false true)).rank = 2 := by
  have := product_rank_formula Abstract.dyad Abstract.dyad false true
    (Abstract.mk (prodFixMax Abstract.dyad Abstract.dyad false true))
    (by decide) (by decide) (by decide)
  rw [this]
  decide

-- ### C6: multiproduct identities

/-- C6: `multiproduct` of an empty factor list is the declared identity —
the nullitope for `multipyramid`, the point for `multiprism`,
`multitegum` and `multicomb` — and `multiproduct` of a single factor is
that factor unchanged. -/
theorem multiproduct_identity_and_single :
    (Abstract.multipyramid [] = some Abstract.nullitope ∧
     Abstract.multiprism [] = some Abstract.point ∧
     Abstract.multitegum [] = some Abstract.point ∧
     Abstract.multicomb [] = some Abstract.point) ∧
    ∀ p : Abstract,
      Abstract.multipyramid [p] = some p ∧ Abstract.multiprism [p] = some p ∧
      Abstract.multitegum [p] = some p ∧ Abstract.multicomb [p] = some p :=
  ⟨⟨rfl, rfl, rfl, rfl⟩, fun _ => ⟨rfl, rfl, rfl, rfl⟩⟩

-- ### C4: element counts of the regular families

/-- C4: `simplex(n)`, `hypercube(n)` and `orthoplex(n)` for
`n ∈ {−1, 0, 1, 2, 3}` produce the known element counts; in particular
`simplex(3) = [1,4,6,4,1]`, `hypercube(3) = [1,8,12,6,1]` and
`orthoplex(3) = [1,6,12,8,1]`. -/
theorem regular_families_el_counts :
    ((Abstract.simplex (-1)).map Abstract.el_counts = some [1] ∧
     (Abstract.simplex 0).map Abstract.el_counts = some [1, 1] ∧
     (Abstract.simplex 1).map Abstract.el_counts = some [1, 2, 1] ∧
     (Abstract.simplex 2).map Abstract.el_counts = some [1, 3, 3, 1] ∧
     (Abstract.simplex 3).map Abstract.el_counts = some [1, 4, 6, 4, 1]) ∧
    ((Abstract.hypercube (-1)).map Abstract.el_counts = some [1] ∧
     (Abstract.hypercube 0).map Abstract.el_counts = some [1, 1] ∧
     (Abstract.hypercube 1).map Abstract.el_counts = some [1, 2, 1] ∧
     (Abstract.hypercube 2).map Abstract.el_counts = some [1, 4, 4, 1] ∧
     (Abstract.hypercube 3).map Abstract.el_counts = some [1, 8, 12, 6, 1]) ∧
    ((Abstract.orthoplex (-1)).map Abstract.el_counts = some [1] ∧
     (Abstract.orthoplex 0).map Abstract.el_counts = some [1, 1] ∧
     (Abstract.orthoplex 1).map Abstract.el_counts = some [1, 2, 1] ∧
     (Abstract.orthoplex 2).map Abstract.el_counts = some [1, 4, 4, 1] ∧
     (Abstract.orthoplex 3).map Abstract.el_counts = some [1, 6, 12, 8, 1]) := by
  decide

-- ### Counterexample structures

/-- A rank-1 structure whose first vertex lists the minimal element twice
among its subelements.  It passes `has_min_max_elements`,
`check_incidences` (even extended to the top rank) and `is_dyadic`
(whose interior-rank loop is empty at rank 1), yet products built from
it violate the diamond property. -/
def pseudoDyad : Abstract := ⟨[[⟨[]⟩], [⟨[0, 0]⟩, ⟨[0]⟩], [⟨[0, 1]⟩]]⟩

/-- A rank-2 structure (one edge on two vertices, maximal element over
the single edge) passing all three validity predicates; its dual is not
dyadic. -/
def halfSquare : Abstract := ⟨[[⟨[]⟩], [⟨[0]⟩, ⟨[0]⟩], [⟨[0, 1]⟩], [⟨[0]⟩]]⟩

/-- A digon with a third, isolated vertex that belongs to no edge.  All
validity predicates hold (the isolated vertex never appears as anyone's
grandchild), but it is not reachable from the maximal element. -/
def isoVertexPoly : Abstract :=
  ⟨[[⟨[]⟩], [⟨[0]⟩, ⟨[0]⟩, ⟨[0]⟩], [⟨[0, 1]⟩, ⟨[0, 1]⟩], [⟨[0, 1]⟩]]⟩

-- ### C5: polygons

theorem polygon_rank (n : Nat) : (Abstract.polygon n).rank = 2 := rfl

theorem polygon_listAt_zero (n : Nat) :
    (Abstract.polygon n).listAt 0 = List.replicate n ⟨[0]⟩ := rfl

theorem polygon_listAt_one (n : Nat) :
    (Abstract.polygon n).listAt 1 =
      (List.range n).map (fun i => Element.mk [(i + 1) % n, (i + 2) % n]) := rfl

/-- C5: for every `n ≥ 2`, `polygon(n)` has element counts `[1, n, n, 1]`
at ranks −1, 0, 1, 2, and satisfies the dyadic (diamond) property. -/
theorem polygon_counts_and_dyadic (n : Nat) (hn : 2 ≤ n) :
    (Abstract.polygon n).el_counts = [1, n, n, 1] ∧
    (Abstract.polygon n).is_dyadic = true := by
  constructor
  · simp [Abstract.el_counts, Abstract.polygon, ElementList.minList, ElementList.maxList]
  · rw [Abstract.is_dyadic, polygon_rank]
    rw [show intRange 1 (2 - 1) = [1] from rfl]
    rw [List.all_cons, List.all_nil, Bool.and_true]
    rw [List.all_eq_true]
    intro el hel
    rw [polygon_listAt_one] at hel
    obtain ⟨i, hi, rfl⟩ := List.mem_map.mp hel
    rw [List.mem_range] at hi
    have hm1 : (i + 1) % n < n := Nat.mod_lt _ (by omega)
    have hm2 : (i + 2) % n < n := Nat.mod_lt _ (by omega)
    simp only [show (1 : Int) - 1 = 0 from rfl, polygon_listAt_zero,
      List.flatMap_cons, List.flatMap_nil, List.append_nil,
      getD_replicate_of_lt hm1, getD_replicate_of_lt hm2]
    decide

/-- C5 witness: the pentagon. -/
theorem polygon_counts_and_dyadic_witness :
    (Abstract.polygon 5).el_counts = [1, 5, 5, 1] ∧
    (Abstract.polygon 5).is_dyadic = true :=
  polygon_counts_and_dyadic 5 (by decide)

-- ### C3: the dual reverses element counts

theorem map_range_getD_eq_map {α β : Type} (l : List α) (g : α → β) (d : α) :
    (List.range l.length).map (fun k => g (l.getD k d)) = l.map g := by
  induction l with
  | nil => rfl
  | cons a t ih =>
    rw [List.length_cons, List.range_succ_eq_map, List.map_cons, List.map_map]
    refine congrArg₂ List.cons rfl ?_
    exact ih

/-- The incidence-transposition passes of `dual_mut` never change the
length of any rank list, so the element counts of the dual are exactly
the reversed counts of the input. -/
theorem dual_mut_el_counts (p : Abstract) :
    p.dual_mut.el_counts = p.el_counts.reverse := by
  rw [Abstract.dual_mut, Abstract.el_counts, Abstract.el_counts]
  show (((List.range p.lists.length).map _).reverse).map List.length = _
  rw [List.map_reverse]
  congr 1
  rw [List.map_map]
  refine Eq.trans ?_ (map_range_getD_eq_map p.lists List.length [])
  apply List.map_congr_left
  intro k _
  simp only [Function.comp_apply]
  by_cases hk2 : k + 1 < p.lists.length
  · rw [if_pos hk2]
    simp [transposeAt]
  · rw [if_neg hk2]
    simp [List.length_set]

/-- C3: for every abstract polytope (the hypotheses are the validity
invariants under which the source's `dual_mut` performs no out-of-range
indexing), the dual has the reversed per-rank element counts, and the
double dual restores the element counts of the original. -/
theorem dual_el_counts_involution (p : Abstract)
    (h1 : p.has_min_max_elements = true)
    (h2 : p.check_incidences_with_top = true) :
    p.dual.el_counts = p.el_counts.reverse ∧
    p.dual.dual.el_counts = p.el_counts := by
  have hd : ∀ t : Abstract, t.dual.el_counts = t.el_counts.reverse := fun t =>
    dual_mut_el_counts t
  refine ⟨hd p, ?_⟩
  rw [hd, hd, List.reverse_reverse]

/-- C3 witness: the square (`polygon 4`). -/
theorem dual_el_counts_involution_witness :
    (Abstract.polygon 4).dual.el_counts = (Abstract.polygon 4).el_counts.reverse ∧
    (Abstract.polygon 4).dual.dual.el_counts = (Abstract.polygon 4).el_counts :=
  dual_el_counts_involution (Abstract.polygon 4) (by decide) (by decide)

-- ### C9: element-vertex extraction

theorem gevLoop_mem (p : Abstract) :
    ∀ (r : Nat) (indices : List Nat) (v : Nat),
      v ∈ gevLoop p r indices ↔ ∃ i ∈ indices, reach p r i v := by
  intro r
  induction r with
  | zero =>
    intro indices v
    simp [gevLoop, reach, eq_comm]
  | succ r ih =>
    intro indices v
    rw [gevLoop, ih]
    constructor
    · rintro ⟨j, hj, hr⟩
      rw [List.mem_dedup, List.mem_flatMap] at hj
      obtain ⟨i, hi, hji⟩ := hj
      refine ⟨i, hi, ?_⟩
      rw [reach]
      exact ⟨j, hji, hr⟩
    · rintro ⟨i, hi, hr⟩
      rw [reach] at hr
      obtain ⟨j, hj, hr⟩ := hr
      exact ⟨j, List.mem_dedup.mpr (List.mem_flatMap.mpr ⟨i, hi, hj⟩), hr⟩

/-- C9 (amended): `get_element_vertices` returns nothing at rank −1, and
applied to the maximal element (index 0 at the top rank) it returns
exactly the vertex indices *reachable* from that element through chains
of subelement memberships — the full vertex set precisely when every
vertex lies below the maximal element (a vertex belonging to no chain,
such as an isolated vertex, is omitted; see
`get_element_vertices_missing_vertex`). -/
theorem get_element_vertices_charact (p : Abstract) :
    (∀ idx : Nat, p.get_element_vertices (-1) idx = none) ∧
    ∀ l : List Nat, p.get_element_vertices p.rank 0 = some l →
      ∀ v, v ∈ l ↔ reach p p.rank.toNat 0 v := by
  constructor
  · intro idx
    simp [Abstract.get_element_vertices]
  · intro l hl v
    rw [Abstract.get_element_vertices] at hl
    by_cases h : p.rank = -1
    · rw [if_pos h] at hl
      cases hl
    · rw [if_neg h] at hl
      have hl2 := Option.some_injective _ hl
      subst hl2
      rw [gevLoop_mem]
      simp

/-- C9 counterexample: a rank-2 structure with an isolated third vertex.
It passes `has_min_max_elements`, `check_incidences` (also including the
top rank) and `is_dyadic`, yet `get_element_vertices` on its maximal
element returns only `[0, 1]` although the polytope has 3 vertices — not
"the set of all vertex indices" the claim states. -/
theorem get_element_vertices_missing_vertex :
    isoVertexPoly.has_min_max_elements = true ∧
    isoVertexPoly.check_incidences = true ∧
    isoVertexPoly.check_incidences_with_top = true ∧
    isoVertexPoly.is_dyadic = true ∧
    isoVertexPoly.el_count 0 = 3 ∧
    isoVertexPoly.get_element_vertices isoVertexPoly.rank 0 = some [0, 1] ∧
    ¬ (2 ∈ [0, 1]) := by
  decide

/-- C9 witness: the triangle; the reachable-vertex characterisation is
instantiated at the concrete extraction result `[1, 2, 0]`. -/
theorem get_element_vertices_charact_witness :
    (Abstract.polygon 3).get_element_vertices (-1) 7 = none ∧
    ((1 : Nat) ∈ [2, 0, 1] ↔ reach (Abstract.polygon 3) 2 0 1) :=
  ⟨(get_element_vertices_charact (Abstract.polygon 3)).1 7,
   (get_element_vertices_charact (Abstract.polygon 3)).2 [2, 0, 1] (by decide) 1⟩

-- ### C1: the product and the dual preserve `check_incidences`

theorem intRange_self (a : Int) : intRange a a = [a] := by
  rw [intRange_cons (le_refl a), intRange_of_lt (by omega)]

/-- The number of elements the product loop creates at product rank `ρ`:
the sum over the admissible rank pairs `(a, ρ - a - min)` of the products
of the factor counts. -/
def prodDiagSum (p q : Abstract) (mn mx : Bool) (ρ : Int) : Nat :=
  ((intRange (prodLow mn) (prodHi p.rank mx)).map (fun a =>
    if prodLow mn ≤ ρ - a - boolInt mn ∧ ρ - a - boolInt mn ≤ prodHi q.rank mx
    then p.el_count a * q.el_count (ρ - a - boolInt mn) else 0)).sum

theorem prodListAt_length (p q : Abstract) (mn mx : Bool) (ρ : Int) :
    (prodListAt p q mn mx ρ).length = prodDiagSum p q mn mx ρ := by
  rw [prodListAt, prodDiagSum, List.length_flatMap]
  congr 1
  apply List.map_congr_left
  intro a _
  simp only [Function.comp_apply]
  by_cases hcond : prodLow mn ≤ ρ - a - boolInt mn ∧ ρ - a - boolInt mn ≤ prodHi q.rank mx
  · rw [if_pos hcond, if_pos hcond, List.length_flatMap]
    rw [show List.map (List.length ∘ _) (List.range (p.el_count a)) =
        List.map (fun _ => q.el_count (ρ - a - boolInt mn)) (List.range (p.el_count a)) from
      List.map_congr_left (by intro x _; simp)]
    rw [sum_map_const_nat, List.length_range]
  · rw [if_neg hcond, if_neg hcond]
    rfl

theorem prodDiagSum_of_le_neg_two (p q : Abstract) (mn mx : Bool) {ρ : Int}
    (hρ : ρ ≤ -2) : prodDiagSum p q mn mx ρ = 0 := by
  rw [prodDiagSum]
  apply List.sum_eq_zero
  intro x hx
  rw [List.mem_map] at hx
  obtain ⟨a, ha, rfl⟩ := hx
  rw [mem_intRange] at ha
  have hlow : prodLow mn = -(boolInt mn) := rfl
  have hbm : boolInt mn = 0 ∨ boolInt mn = 1 := by
    rw [boolInt]; rcases mn <;> simp
  rw [if_neg (by omega)]

theorem offsetMemo_eq_sum (p q : Abstract) (p_low q_low q_hi : Int) :
    ∀ (i j : Nat), q_low + (j : Int) ≤ q_hi →
      offsetMemo p q p_low q_low q_hi i j =
        ((intRange p_low (p_low + (i : Int))).map (fun a =>
          if p_low + (i : Int) + q_low + (j : Int) - a ≤ q_hi
          then p.el_count a * q.el_count (p_low + (i : Int) + q_low + (j : Int) - a)
          else 0)).sum := by
  intro i
  induction i with
  | zero =>
    intro j hj
    rw [offsetMemo]
    simp only [Nat.cast_zero, add_zero]
    rw [intRange_self, List.map_cons, List.map_nil, List.sum_cons, List.sum_nil]
    rw [show p_low + q_low + (j : Int) - p_low = q_low + (j : Int) from by ring]
    rw [if_pos hj]
    omega
  | succ i ih =>
    intro j hj
    rw [offsetMemo]
    rw [show ((i + 1 : Nat) : Int) = (i : Int) + 1 from by push_cast; ring]
    rw [show p_low + ((i : Int) + 1) = p_low + (i : Int) + 1 from by ring]
    rw [intRange_concat (show p_low ≤ p_low + (i : Int) + 1 from by omega)]
    rw [List.map_append, List.sum_append, List.map_cons, List.map_nil, List.sum_cons,
      List.sum_nil]
    rw [show p_low + (i : Int) + 1 + q_low + (j : Int) - (p_low + (i : Int) + 1) =
      q_low + (j : Int) from by ring]
    rw [if_pos hj]
    by_cases hq : q_low + (j : Int) = q_hi
    · rw [if_pos hq]
      have hzero :
          ((intRange p_low (p_low + (i : Int) + 1 - 1)).map (fun a =>
            if p_low + (i : Int) + 1 + q_low + (j : Int) - a ≤ q_hi
            then p.el_count a * q.el_count (p_low + (i : Int) + 1 + q_low + (j : Int) - a)
            else 0)).sum = 0 := by
        apply List.sum_eq_zero
        intro x hx
        rw [List.mem_map] at hx
        obtain ⟨a, ha, rfl⟩ := hx
        rw [mem_intRange] at ha
        rw [if_neg (by omega)]
      rw [hzero]
      omega
    · rw [if_neg hq]
      rw [ih (j + 1) (by push_cast; omega)]
      rw [show ((j + 1 : Nat) : Int) = (j : Int) + 1 from by push_cast; ring]
      rw [show p_low + (i : Int) + q_low + ((j : Int) + 1) =
        p_low + (i : Int) + 1 + q_low + (j : Int) from by ring]
      rw [show p_low + (i : Int) + 1 - 1 = p_low + (i : Int) from by ring]
      omega

theorem prodOffset_eq_sum (p q : Abstract) (mn mx : Bool) {pr qr : Int}
    (hpl : prodLow mn ≤ pr) (hph : pr ≤ prodHi p.rank mx)
    (hql : prodLow mn ≤ qr) (hqh : qr ≤ prodHi q.rank mx) :
    prodOffset p q mn mx (pr - 1) (qr + 1) =
      ((intRange (prodLow mn) (pr - 1)).map (fun a =>
        if pr + qr - a ≤ prodHi q.rank mx
        then p.el_count a * q.el_count (pr + qr - a) else 0)).sum := by
  rw [prodOffset]
  by_cases h1 : prodLow mn ≤ pr - 1
  · by_cases h2 : qr + 1 ≤ prodHi q.rank mx
    · rw [if_pos ⟨h1, by omega, by omega, h2⟩]
      rw [offsetMemo_eq_sum p q _ _ _ (pr - 1 - prodLow mn).toNat (qr + 1 - prodLow mn).toNat
        (by omega)]
      rw [show prodLow mn + (((pr - 1 - prodLow mn).toNat : Nat) : Int) = pr - 1 from by omega]
      rw [show pr - 1 + prodLow mn + (((qr + 1 - prodLow mn).toNat : Nat) : Int) = pr + qr from by
        omega]
    · rw [if_neg (fun hcon => h2 hcon.2.2.2)]
      symm
      apply List.sum_eq_zero
      intro x hx
      rw [List.mem_map] at hx
      obtain ⟨a, ha, rfl⟩ := hx
      rw [mem_intRange] at ha
      rw [if_neg (by omega)]
  · rw [if_neg (fun hcon => h1 hcon.1)]
    rw [intRange_of_lt (by omega), List.map_nil, List.sum_nil]

theorem getD_mem_of_lt {α : Type} {l : List α} {n : Nat} (h : n < l.length) (d : α) :
    l.getD n d ∈ l := by
  rw [List.getD_eq_getElem?_getD, List.getElem?_eq_getElem h]
  exact List.getElem_mem h

/-- Any `get_element_index` of a valid rank pair and valid element pair
lands strictly below the number of elements the loop creates at the
corresponding product rank: the offset table contributes the sizes of all
earlier blocks on the same diagonal, and the element pair stays inside
its own block. -/
theorem get_element_index_lt (p q : Abstract) (mn mx : Bool) (pr qr : Int) (pidx qidx : Nat)
    (hpl : prodLow mn ≤ pr) (hph : pr ≤ prodHi p.rank mx)
    (hql : prodLow mn ≤ qr) (hqh : qr ≤ prodHi q.rank mx)
    (hpi : pidx < p.el_count pr) (hqi : qidx < q.el_count qr) :
    get_element_index p q mn mx pr pidx qr qidx <
      prodDiagSum p q mn mx (pr + qr + boolInt mn) := by
  rw [get_element_index, prodOffset_eq_sum p q mn mx hpl hph hql hqh, prodDiagSum]
  have hsum :
      (intRange (prodLow mn) (prodHi p.rank mx)).map (fun a =>
        if prodLow mn ≤ pr + qr + boolInt mn - a - boolInt mn ∧
            pr + qr + boolInt mn - a - boolInt mn ≤ prodHi q.rank mx
        then p.el_count a * q.el_count (pr + qr + boolInt mn - a - boolInt mn) else 0) =
      (intRange (prodLow mn) (prodHi p.rank mx)).map (fun a =>
        if prodLow mn ≤ pr + qr - a ∧ pr + qr - a ≤ prodHi q.rank mx
        then p.el_count a * q.el_count (pr + qr - a) else 0) := by
    apply List.map_congr_left
    intro a _
    rw [show pr + qr + boolInt mn - a - boolInt mn = pr + qr - a from by ring]
  rw [hsum]
  rw [intRange_split hpl (show pr ≤ prodHi p.rank mx + 1 from by omega)]
  rw [List.map_append, List.sum_append]
  rw [intRange_cons hph, List.map_cons, List.sum_cons]
  rw [show pr + qr - pr = qr from by ring]
  rw [if_pos ⟨hql, hqh⟩]
  have hpre :
      (intRange (prodLow mn) (pr - 1)).map (fun a =>
        if pr + qr - a ≤ prodHi q.rank mx
        then p.el_count a * q.el_count (pr + qr - a) else 0) =
      (intRange (prodLow mn) (pr - 1)).map (fun a =>
        if prodLow mn ≤ pr + qr - a ∧ pr + qr - a ≤ prodHi q.rank mx
        then p.el_count a * q.el_count (pr + qr - a) else 0) := by
    apply List.map_congr_left
    intro a ha
    rw [mem_intRange] at ha
    by_cases hc : pr + qr - a ≤ prodHi q.rank mx
    · rw [if_pos hc, if_pos ⟨by omega, hc⟩]
    · rw [if_neg hc, if_neg (fun hcon => hc hcon.2)]
  rw [hpre]
  have hterm : pidx * q.el_count qr + qidx < p.el_count pr * q.el_count qr := by
    have h2 : pidx * q.el_count qr + q.el_count qr = (pidx + 1) * q.el_count qr := by ring
    have h3 : (pidx + 1) * q.el_count qr ≤ p.el_count pr * q.el_count qr :=
      Nat.mul_le_mul_right _ hpi
    omega
  omega

/-- Under full referential integrity of the factors, every subelement
index generated by the product's element loop at product rank `ρ` is a
valid index into the loop-generated list one rank below. -/
theorem prodListAt_subs_lt (p q : Abstract) (mn mx : Bool)
    (hp : p.check_incidences_with_top = true) (hq : q.check_incidences_with_top = true)
    (ρ : Int) :
    ∀ el ∈ prodListAt p q mn mx ρ, ∀ s ∈ el.subs,
      s < prodDiagSum p q mn mx (ρ - 1) := by
  intro el hel s hs
  rw [prodListAt, List.mem_flatMap] at hel
  obtain ⟨a, ha, hel⟩ := hel
  rw [mem_intRange] at ha
  by_cases hcond : prodLow mn ≤ ρ - a - boolInt mn ∧ ρ - a - boolInt mn ≤ prodHi q.rank mx
  swap
  · rw [if_neg hcond] at hel
    simp at hel
  rw [if_pos hcond] at hel
  rw [List.mem_flatMap] at hel
  obtain ⟨pidx, hpidx, hel⟩ := hel
  rw [List.mem_range] at hpidx
  rw [List.mem_map] at hel
  obtain ⟨qidx, hqidx, rfl⟩ := hel
  rw [List.mem_range] at hqidx
  replace hs : s ∈
      (if a ≠ 0 ∨ mn = true then
        ((p.listAt a).getD pidx ⟨[]⟩).subs.map
          (fun t => get_element_index p q mn mx (a - 1) t (ρ - a - boolInt mn) qidx)
      else []) ++
      (if ρ - a - boolInt mn ≠ 0 ∨ mn = true then
        ((q.listAt (ρ - a - boolInt mn)).getD qidx ⟨[]⟩).subs.map
          (fun t => get_element_index p q mn mx a pidx (ρ - a - boolInt mn - 1) t)
      else []) := hs
  rw [List.mem_append] at hs
  rcases hs with hs | hs
  · by_cases hpc : a ≠ 0 ∨ mn = true
    swap
    · rw [if_neg hpc] at hs
      simp at hs
    rw [if_pos hpc] at hs
    rw [List.mem_map] at hs
    obtain ⟨t, ht, rfl⟩ := hs
    have hmem := getD_mem_of_lt (show pidx < (p.listAt a).length from hpidx) (⟨[]⟩ : Element)
    have ht2 : t < p.el_count (a - 1) :=
      check_incidences_with_top_spec hp a _ hmem t ht
    have hne : ¬ (a = -1) := by
      intro haeq
      subst haeq
      have hnil := subs_nil_at_bottom hp _ hmem
      rw [hnil] at ht
      exact absurd ht (List.not_mem_nil t)
    have hage : prodLow mn ≤ a - 1 := by
      by_cases hmn3 : mn = true
      · have hl : prodLow mn = -1 := by simp [prodLow, boolInt, hmn3]
        omega
      · have hmnf : mn = false := by rw [← Bool.not_eq_true]; exact hmn3
        have hl : prodLow mn = 0 := by simp [prodLow, boolInt, hmnf]
        have h0 : ¬ (a = 0) := by
          rcases hpc with h0 | hmn2
          · exact h0
          · exact absurd hmn2 hmn3
        omega
    have hb := get_element_index_lt p q mn mx (a - 1) (ρ - a - boolInt mn) t qidx
      hage (by omega) hcond.1 hcond.2 ht2 hqidx
    rw [show a - 1 + (ρ - a - boolInt mn) + boolInt mn = ρ - 1 from by ring] at hb
    exact hb
  · by_cases hqc : ρ - a - boolInt mn ≠ 0 ∨ mn = true
    swap
    · rw [if_neg hqc] at hs
      simp at hs
    rw [if_pos hqc] at hs
    rw [List.mem_map] at hs
    obtain ⟨t, ht, rfl⟩ := hs
    have hmem := getD_mem_of_lt
      (show qidx < (q.listAt (ρ - a - boolInt mn)).length from hqidx) (⟨[]⟩ : Element)
    have ht2 : t < q.el_count (ρ - a - boolInt mn - 1) :=
      check_incidences_with_top_spec hq _ _ hmem t ht
    have hne : ¬ (ρ - a - boolInt mn = -1) := by
      intro hbeq
      rw [hbeq] at hmem ht
      have hnil := subs_nil_at_bottom hq _ hmem
      rw [hnil] at ht
      exact absurd ht (List.not_mem_nil t)
    have hbge : prodLow mn ≤ ρ - a - boolInt mn - 1 := by
      by_cases hmn3 : mn = true
      · have hl : prodLow mn = -1 := by simp [prodLow, boolInt, hmn3]
        omega
      · have hmnf : mn = false := by rw [← Bool.not_eq_true]; exact hmn3
        have hl : prodLow mn = 0 := by simp [prodLow, boolInt, hmnf]
        have h0 : ¬ (ρ - a - boolInt mn = 0) := by
          rcases hqc with h0 | hmn2
          · exact h0
          · exact absurd hmn2 hmn3
        omega
    have hb := get_element_index_lt p q mn mx a (ρ - a - boolInt mn - 1) pidx t
      ha.1 ha.2 hbge (by omega) hpidx ht2
    rw [show a + (ρ - a - boolInt mn - 1) + boolInt mn = ρ - 1 from by ring] at hb
    exact hb

/-- With `min` off, the loop can create at most `|p₀| · |q₀|` elements at
product rank 0 (only the block `(0, 0)` contributes), so the synthesized
vertex list is at least as long as any loop count there. -/
theorem prodDiagSum_zero_le (p q : Abstract) (mx : Bool) :
    prodDiagSum p q false mx 0 ≤ p.el_count 0 * q.el_count 0 := by
  rw [prodDiagSum]
  have hlow : prodLow false = 0 := by simp [prodLow, boolInt]
  have hbm : boolInt false = 0 := by simp [boolInt]
  rw [hlow, hbm]
  by_cases hph : (0 : Int) ≤ prodHi p.rank mx
  · rw [intRange_cons hph, List.map_cons, List.sum_cons]
    have hrest :
        ((intRange (0 + 1) (prodHi p.rank mx)).map (fun a =>
          if (0 : Int) ≤ 0 - a - 0 ∧ 0 - a - 0 ≤ prodHi q.rank mx
          then p.el_count a * q.el_count (0 - a - 0) else 0)).sum = 0 := by
      apply List.sum_eq_zero
      intro x hx
      rw [List.mem_map] at hx
      obtain ⟨a, ha, rfl⟩ := hx
      rw [mem_intRange] at ha
      rw [if_neg (by omega)]
    rw [hrest]
    rw [show (0 : Int) - 0 - 0 = 0 from by ring]
    by_cases hc : (0 : Int) ≤ 0 ∧ (0 : Int) ≤ prodHi q.rank mx
    · rw [if_pos hc]
      omega
    · rw [if_neg hc]
      omega
  · rw [intRange_of_lt (by omega), List.map_nil, List.sum_nil]
    omega

theorem prodBase_getD (p q : Abstract) (mn mx : Bool) {r : Int}
    (h1 : -1 ≤ r) (h2 : r ≤ prodRank p q mn mx) :
    (prodBase p q mn mx).getD (r + 1).toNat [] = prodListAt p q mn mx r := by
  rw [prodBase]
  rw [intRange_map_getD (prodListAt p q mn mx) []
    (show (r + 1).toNat < (prodRank p q mn mx + 1 - (-1)).toNat from by omega)]
  rw [show (-1 : Int) + ((r + 1).toNat : Int) = r from by omega]

theorem prodFixMin_getD (p q : Abstract) (mn mx : Bool) {r : Int}
    (h1 : -1 ≤ r) (h2 : r ≤ prodRank p q mn mx)
    (h3 : mn = true ∨ 0 ≤ prodRank p q mn mx) :
    (prodFixMin p q mn mx).getD (r + 1).toNat [] =
      if mn = false ∧ r = -1 then ElementList.minList
      else if mn = false ∧ r = 0 then
        ElementList.vertices (p.el_count 0 * q.el_count 0)
      else prodListAt p q mn mx r := by
  rw [prodFixMin]
  by_cases hmn : mn = true
  · rw [if_pos hmn]
    rw [if_neg (fun hcon => by rw [hmn] at hcon; cases hcon.1),
      if_neg (fun hcon => by rw [hmn] at hcon; cases hcon.1)]
    exact prodBase_getD p q mn mx h1 h2
  · have hmnf : mn = false := by rw [← Bool.not_eq_true]; exact hmn
    rw [if_neg hmn]
    have hR : 0 ≤ prodRank p q mn mx := by
      rcases h3 with h3 | h3
      · exact absurd h3 hmn
      · exact h3
    have hlen : (prodBase p q mn mx).length = (prodRank p q mn mx + 2).toNat := by
      rw [prodBase, List.length_map, intRange_length]
      omega
    by_cases hr1 : r = -1
    · subst hr1
      rw [show ((-1 : Int) + 1).toNat = 0 from by omega]
      rw [getD_set_ne (by omega) _ _, getD_set_self (by rw [hlen]; omega) _ _]
      rw [if_pos ⟨hmnf, rfl⟩]
    · by_cases hr0 : r = 0
      · subst hr0
        rw [show ((0 : Int) + 1).toNat = 1 from by omega]
        rw [getD_set_self (by rw [List.length_set, hlen]; omega) _ _]
        rw [if_neg (fun hcon => by cases hcon.2), if_pos ⟨hmnf, rfl⟩]
      · rw [getD_set_ne (by omega) _ _, getD_set_ne (by omega) _ _]
        rw [if_neg (fun hcon => hr1 hcon.2), if_neg (fun hcon => hr0 hcon.2)]
        exact prodBase_getD p q mn mx h1 h2

/-- The element list of a completed product at any rank strictly below
the product rank: the synthesized minimal/vertex lists when `min` is off,
and otherwise exactly what the loop generated.  (The `max` fix-up only
touches the top rank, which lies outside this range.) -/
theorem product_listAt_of_le {p q : Abstract} {mn mx : Bool} {res : Abstract}
    (h : Abstract.product p q mn mx = some res) {r : Int}
    (h1 : -1 ≤ r) (h2 : r ≤ prodRank p q mn mx - 1) :
    res.listAt r =
      if mn = false ∧ r = -1 then ElementList.minList
      else if mn = false ∧ r = 0 then
        ElementList.vertices (p.el_count 0 * q.el_count 0)
      else prodListAt p q mn mx r := by
  obtain ⟨hres, hmn, hmx⟩ := product_some_elim h
  rw [hres, Abstract.listAt, if_neg (by omega)]
  show (prodFixMax p q mn mx).getD (r + 1).toNat [] = _
  rw [prodFixMax]
  have hstep : (prodFixMin p q mn mx).getD (r + 1).toNat [] = _ :=
    prodFixMin_getD p q mn mx h1 (by omega) hmn
  by_cases hmx2 : mx = true
  · rw [if_pos hmx2]
    exact hstep
  · rw [if_neg hmx2]
    rw [getD_set_ne (by omega) _ _]
    exact hstep

/-- Half of the amended C1: a product that completes satisfies
`check_incidences`, provided both factors satisfy referential integrity
at every rank including the maximal element (which the source's
`check_incidences` does not itself inspect). -/
theorem product_check_incidences {p q : Abstract} {mn mx : Bool} {res : Abstract}
    (hp : p.check_incidences_with_top = true) (hq : q.check_incidences_with_top = true)
    (h : Abstract.product p q mn mx = some res) :
    res.check_incidences = true := by
  obtain ⟨hres, hmn, hmx⟩ := product_some_elim h
  have hrank : res.rank = ((prodRank p q mn mx + 2).toNat : Int) - 2 := by
    rw [hres, Abstract.rank, prodFixMax_length]
  rw [Abstract.check_incidences, List.all_eq_true]
  intro r hr
  rw [mem_intRange] at hr
  obtain ⟨hr1, hr2⟩ := hr
  have hr2' : r ≤ prodRank p q mn mx - 1 := by omega
  rw [List.all_eq_true]
  intro el hel
  rw [List.all_eq_true]
  intro s hsmem
  rw [decide_eq_true_eq]
  rw [product_listAt_of_le h hr1 hr2'] at hel
  by_cases hc1 : mn = false ∧ r = -1
  · rw [if_pos hc1] at hel
    rw [ElementList.minList, List.mem_singleton] at hel
    subst hel
    exact absurd hsmem (List.not_mem_nil s)
  · rw [if_neg hc1] at hel
    by_cases hc2 : mn = false ∧ r = 0
    · rw [if_pos hc2] at hel
      rw [ElementList.vertices] at hel
      have hel2 := List.eq_of_mem_replicate hel
      subst hel2
      rw [List.mem_singleton] at hsmem
      subst hsmem
      have hm1 : res.listAt (r - 1) = ElementList.minList := by
        rw [product_listAt_of_le h (by omega) (by omega), if_pos ⟨hc2.1, by omega⟩]
      rw [Abstract.el_count, hm1, ElementList.minList]
      simp
    · rw [if_neg hc2] at hel
      have hsub := prodListAt_subs_lt p q mn mx hp hq r el hel s hsmem
      by_cases hrm : r = -1
      · exfalso
        rw [hrm] at hsub
        rw [prodDiagSum_of_le_neg_two p q mn mx (by omega)] at hsub
        omega
      · refine lt_of_lt_of_le hsub ?_
        by_cases hd1 : mn = false ∧ r - 1 = -1
        · exact absurd ⟨hd1.1, by omega⟩ hc2
        · by_cases hd2 : mn = false ∧ r - 1 = 0
          · have hcount : res.listAt (r - 1) =
                ElementList.vertices (p.el_count 0 * q.el_count 0) := by
              rw [product_listAt_of_le h (by omega) (by omega), if_neg hd1, if_pos hd2]
            rw [Abstract.el_count, hcount, ElementList.vertices, List.length_replicate]
            rw [show r - 1 = 0 from hd2.2]
            rw [show mn = false from hd2.1]
            exact prodDiagSum_zero_le p q mx
          · have hcount : res.listAt (r - 1) = prodListAt p q mn mx (r - 1) := by
              rw [product_listAt_of_le h (by omega) (by omega), if_neg hd1, if_neg hd2]
            rw [Abstract.el_count, hcount, prodListAt_length]

theorem dual_mut_lists_length (p : Abstract) :
    p.dual_mut.lists.length = p.lists.length := by
  simp [Abstract.dual_mut]

theorem dual_mut_rank (p : Abstract) : p.dual_mut.rank = p.rank := by
  rw [Abstract.rank, Abstract.rank, dual_mut_lists_length]

theorem transposeAt_length (cur : ElementList) (n : Nat) :
    (transposeAt cur n).length = n := by
  simp [transposeAt]

/-- Every subelement entry written by the transposition step is a
superelement index produced by `enumerate`, hence a valid index into the
rank being read. -/
theorem transposeAt_subs_lt (cur : ElementList) (n : Nat) :
    ∀ el ∈ transposeAt cur n, ∀ s ∈ el.subs, s < cur.length := by
  intro el hel s hs
  rw [transposeAt, List.mem_map] at hel
  obtain ⟨j, hj, rfl⟩ := hel
  replace hs : s ∈ (List.range cur.length).flatMap (fun idx =>
      (cur.getD idx ⟨[]⟩).subs.filterMap (fun t => if t = j then some idx else none)) := hs
  rw [List.mem_flatMap] at hs
  obtain ⟨idx, hidx, hs⟩ := hs
  rw [List.mem_range] at hidx
  rw [List.mem_filterMap] at hs
  obtain ⟨t, _, heq⟩ := hs
  by_cases htj : t = j
  · rw [if_pos htj] at heq
    cases heq
    exact hidx
  · rw [if_neg htj] at heq
    cases heq

theorem dual_mut_listAt_of_nonneg (p : Abstract) {r : Int}
    (hr1 : 0 ≤ r) (hr2 : r ≤ p.rank) :
    p.dual_mut.listAt r =
      transposeAt (p.lists.getD (p.lists.length - (r + 1).toNat) [])
        (p.lists.getD (p.lists.length - 1 - (r + 1).toNat) []).length := by
  have hlen : (r + 1).toNat < p.lists.length := by
    rw [Abstract.rank] at hr2
    omega
  rw [Abstract.dual_mut, Abstract.listAt, if_neg (by omega)]
  show (((List.range p.lists.length).map _).reverse).getD (r + 1).toNat [] = _
  rw [reverse_map_range_getD _ _ _ _ hlen]
  rw [if_pos (by omega)]
  rw [show p.lists.length - 1 - (r + 1).toNat + 1 = p.lists.length - (r + 1).toNat from by
    omega]

theorem dual_mut_listAt_neg_one (p : Abstract) (hn : 1 ≤ p.lists.length) :
    p.dual_mut.listAt (-1) = (p.lists.getD (p.lists.length - 1) []).set 0 ⟨[]⟩ := by
  rw [Abstract.dual_mut, Abstract.listAt, if_neg (by omega)]
  show (((List.range p.lists.length).map _).reverse).getD ((-1 : Int) + 1).toNat [] = _
  rw [show ((-1 : Int) + 1).toNat = 0 from by omega]
  rw [reverse_map_range_getD _ _ _ _ (by omega)]
  rw [if_neg (by omega)]
  rw [show p.lists.length - 1 - 0 = p.lists.length - 1 from by omega]

/-- Half of the amended C1: the dual of a polytope with unique
minimal/maximal elements and full referential integrity satisfies
`check_incidences`.  (The hypotheses also delimit the inputs on which
the source `dual_mut` performs no out-of-range — panicking — indexing.) -/
theorem dual_check_incidences (p : Abstract)
    (h1 : p.has_min_max_elements = true)
    (h2 : p.check_incidences_with_top = true) :
    p.dual.check_incidences = true := by
  rw [Abstract.dual, Abstract.check_incidences, List.all_eq_true]
  intro r hr
  rw [mem_intRange, dual_mut_rank] at hr
  obtain ⟨hr1, hr2⟩ := hr
  have hn : 2 ≤ p.lists.length := by
    rw [Abstract.rank] at hr2
    omega
  have htopcount : p.el_count p.rank = 1 := by
    rw [Abstract.has_min_max_elements, Bool.and_eq_true] at h1
    have := h1.2
    rw [Nat.beq_eq_true_eq] at this
    exact this
  have htoplen : (p.lists.getD (p.lists.length - 1) []).length = 1 := by
    rw [Abstract.el_count, Abstract.listAt, if_neg (by rw [Abstract.rank]; omega)] at htopcount
    rw [show (p.rank + 1).toNat = p.lists.length - 1 from by rw [Abstract.rank]; omega] at htopcount
    exact htopcount
  rw [List.all_eq_true]
  intro el hel
  rw [List.all_eq_true]
  intro s hsmem
  rw [decide_eq_true_eq]
  by_cases hr0 : r = -1
  · exfalso
    rw [hr0, dual_mut_listAt_neg_one p (by omega)] at hel
    obtain ⟨a, ha⟩ := List.length_eq_one.mp htoplen
    rw [ha] at hel
    rw [show ([a].set 0 (⟨[]⟩ : Element)) = [(⟨[]⟩ : Element)] from rfl] at hel
    rw [List.mem_singleton] at hel
    subst hel
    exact absurd hsmem (List.not_mem_nil s)
  · rw [dual_mut_listAt_of_nonneg p (by omega) (by omega)] at hel
    have hs := transposeAt_subs_lt _ _ el hel s hsmem
    refine lt_of_lt_of_le hs (le_of_eq ?_)
    rw [Abstract.el_count]
    by_cases hr10 : 0 ≤ r - 1
    · rw [dual_mut_listAt_of_nonneg p hr10 (by omega)]
      rw [transposeAt_length]
      rw [show p.lists.length - 1 - (r - 1 + 1).toNat = p.lists.length - (r + 1).toNat from by
        omega]
    · have hr0' : r = 0 := by omega
      rw [hr0', show (0 : Int) - 1 = -1 from by ring]
      rw [dual_mut_listAt_neg_one p (by omega)]
      rw [List.length_set]
      rw [show p.lists.length - ((0 : Int) + 1).toNat = p.lists.length - 1 from by omega]

-- ### C1: statement, counterexample and witness

/-- C1 (amended): for factors satisfying `has_min_max_elements`,
`is_dyadic`, and referential integrity extended to the maximal element's
subelements (which `check_incidences` skips), every product construction
that completes satisfies `check_incidences`, and so does the dual.  The
original claim also asserted preservation of `is_dyadic`, which is false:
see `product_not_dyadic_cex` (and `halfSquare`, whose dual fails
`is_dyadic` as well). -/
theorem product_dual_preserve_check_incidences
    (p q : Abstract) (mn mx : Bool) (res : Abstract)
    (hp1 : p.has_min_max_elements = true) (hq1 : q.has_min_max_elements = true)
    (hp2 : p.check_incidences_with_top = true) (hq2 : q.check_incidences_with_top = true)
    (hp3 : p.is_dyadic = true) (hq3 : q.is_dyadic = true)
    (h : Abstract.product p q mn mx = some res) :
    res.check_incidences = true ∧ p.dual.check_incidences = true :=
  ⟨product_check_incidences hp2 hq2 h, dual_check_incidences p hp1 hp2⟩

/-- C1 counterexample: `pseudoDyad` and the point satisfy all three
validity predicates of the claim (`pseudoDyad` even satisfies the
incidence check extended to the top rank), yet their duopyramid — the
product with both flags on — fails `is_dyadic`: the product vertex
`(v₀, min_q)` inherits the duplicated subelement and the product edge
`(v₀, max_q)` sees the product minimal element four times among its
grandchildren. -/
theorem product_not_dyadic_cex :
    pseudoDyad.has_min_max_elements = true ∧
    pseudoDyad.check_incidences = true ∧
    pseudoDyad.is_dyadic = true ∧
    pseudoDyad.check_incidences_with_top = true ∧
    Abstract.point.has_min_max_elements = true ∧
    Abstract.point.check_incidences = true ∧
    Abstract.point.is_dyadic = true ∧
    (Abstract.product pseudoDyad Abstract.point true true).map Abstract.is_dyadic =
      some false := by
  decide

/-- C1 witness: the duopyramid of two points (a dyad). -/
theorem product_dual_preserve_check_incidences_witness :
    (Abstract.mk (prodFixMax Abstract.point Abstract.point true true)).check_incidences =
      true ∧
    Abstract.point.dual.check_incidences = true :=
  product_dual_preserve_check_incidences Abstract.point Abstract.point true true
    (Abstract.mk (prodFixMax Abstract.point Abstract.point true true))
    (by decide) (by decide) (by decide) (by decide) (by decide) (by decide) (by decide)

-- ### C7 and C10: the reciprocal dual

theorem reciprocate_none_iff (o : Point) (l : List Point) :
    reciprocate o l = none ↔ ∃ v ∈ l, normSq (pSub v o) < EPS := by
  induction l with
  | nil => simp [reciprocate]
  | cons v rest ih =>
    rw [reciprocate]
    by_cases hv : normSq (pSub v o) < EPS
    · rw [if_pos hv]
      constructor
      · intro _
        exact ⟨v, List.mem_cons_self v rest, hv⟩
      · intro _
        rfl
    · rw [if_neg hv]
      cases hrec : reciprocate o rest with
      | none =>
        constructor
        · intro _
          obtain ⟨w, hw, hws⟩ := ih.mp hrec
          exact ⟨w, List.mem_cons_of_mem v hw, hws⟩
        · intro _
          rfl
      | some tl =>
        constructor
        · intro hcon
          cases hcon
        · intro hcon
          obtain ⟨w, hw, hws⟩ := hcon
          rcases List.mem_cons.mp hw with hw | hw
          · subst hw
            exact absurd hws hv
          · have : reciprocate o rest = none := ih.mpr ⟨w, hw, hws⟩
            rw [this] at hrec
            cases hrec

theorem reciprocate_some_eq (o : Point) (l : List Point)
    (h : ∀ v ∈ l, ¬ (normSq (pSub v o) < EPS)) :
    reciprocate o l =
      some (l.map (fun v => pAdd (pSmul (1 / normSq (pSub v o)) (pSub v o)) o)) := by
  induction l with
  | nil => rfl
  | cons v rest ih =>
    rw [reciprocate, if_neg (h v (List.mem_cons_self v rest))]
    rw [ih (fun w hw => h w (List.mem_cons_of_mem v hw))]
    rfl

/-- C7 (confirmed over the spec-modelled geometry layer): for every
concrete polytope of rank ≥ 1 and every reciprocation sphere,
`dual_with_sphere` and `dual_mut_with_sphere` return absence exactly when
some facet projection of the projected center `o` lies within the EPS
tolerance of `o` (the source tests the squared distance `‖v−o‖² < 1e-9`),
and otherwise they return the reciprocal dual: each projection `v`
replaced by `o + (v−o)/‖v−o‖²` over the abstract dual.  `proj` stands for
the `Subspace::from_points(..).project` primitive of the geometry module,
which is not part of the provided sources. -/
theorem dual_with_sphere_absence_iff (proj : List Point → Point → Point)
    (self : Concrete) (sphere : Hypersphere) (hrank : 1 ≤ self.rank) :
    (Concrete.dual_with_sphere proj self sphere = none ↔
      ∃ v ∈ facetProjections proj self (proj self.vertices sphere.center),
        normSq (pSub v (proj self.vertices sphere.center)) < EPS) ∧
    ((Concrete.dual_mut_with_sphere proj self sphere).2 = false ↔
      ∃ v ∈ facetProjections proj self (proj self.vertices sphere.center),
        normSq (pSub v (proj self.vertices sphere.center)) < EPS) ∧
    (∀ res : Concrete, Concrete.dual_with_sphere proj self sphere = some res →
      res.abs = self.abs.dual_mut ∧
      res.vertices =
        (facetProjections proj self (proj self.vertices sphere.center)).map
          (fun v => pAdd (pSmul (1 / normSq (pSub v (proj self.vertices sphere.center)))
            (pSub v (proj self.vertices sphere.center))) (proj self.vertices sphere.center))) := by
  have hmut : Concrete.dual_mut_with_sphere proj self sphere =
      (match reciprocate (proj self.vertices sphere.center)
          (facetProjections proj self (proj self.vertices sphere.center)) with
       | none => (self, false)
       | some projections =>
          ({ vertices := projections, abs := self.abs.dual_mut }, true)) := by
    rw [Concrete.dual_mut_with_sphere, if_neg (by omega)]
  cases hrec : reciprocate (proj self.vertices sphere.center)
      (facetProjections proj self (proj self.vertices sphere.center)) with
  | none =>
    rw [hrec] at hmut
    have habs := (reciprocate_none_iff _ _).mp hrec
    refine ⟨?_, ?_, ?_⟩
    · rw [Concrete.dual_with_sphere, hmut]
      simp only [Bool.false_eq_true, if_neg]
      constructor
      · intro _
        exact habs
      · intro _
        rfl
    · rw [hmut]
      exact ⟨fun _ => habs, fun _ => rfl⟩
    · intro res hres
      rw [Concrete.dual_with_sphere, hmut] at hres
      simp at hres
  | some tl =>
    rw [hrec] at hmut
    have hnone : ¬ (reciprocate (proj self.vertices sphere.center)
        (facetProjections proj self (proj self.vertices sphere.center)) = none) := by
      rw [hrec]
      intro hcon
      cases hcon
    have hnotex := fun hex => hnone ((reciprocate_none_iff _ _).mpr hex)
    have htl : tl = (facetProjections proj self (proj self.vertices sphere.center)).map
        (fun v => pAdd (pSmul (1 / normSq (pSub v (proj self.vertices sphere.center)))
          (pSub v (proj self.vertices sphere.center))) (proj self.vertices sphere.center)) := by
      have := reciprocate_some_eq (proj self.vertices sphere.center)
        (facetProjections proj self (proj self.vertices sphere.center))
        (fun v hv hlt => hnotex ⟨v, hv, hlt⟩)
      rw [hrec] at this
      exact Option.some_injective _ this
    refine ⟨?_, ?_, ?_⟩
    · rw [Concrete.dual_with_sphere, hmut]
      constructor
      · intro hcon
        simp at hcon
      · intro hex
        exact absurd hex hnotex
    · rw [hmut]
      constructor
      · intro hcon
        cases hcon
      · intro hex
        exact absurd hex hnotex
    · intro res hres
      rw [Concrete.dual_with_sphere, hmut] at hres
      simp only [if_pos] at hres
      have : ({ vertices := tl, abs := self.abs.dual_mut } : Concrete) = res :=
        Option.some_injective _ hres
      rw [← this, htl]
      exact ⟨rfl, rfl⟩

/-- C10: `dual_mut_with_sphere` is atomic on failure — whenever it
returns absence, the polytope is exactly as it was: both the vertex list
and the abstract incidence structure are unchanged, because every
reciprocation check runs on the local projection list before any field of
`self` is assigned. -/
theorem dual_mut_with_sphere_atomic (proj : List Point → Point → Point)
    (self : Concrete) (sphere : Hypersphere)
    (h : (Concrete.dual_mut_with_sphere proj self sphere).2 = false) :
    (Concrete.dual_mut_with_sphere proj self sphere).1 = self := by
  rw [Concrete.dual_mut_with_sphere] at h ⊢
  by_cases hrank : self.rank < 1
  · rw [if_pos hrank] at h
    cases h
  · rw [if_neg hrank] at h ⊢
    cases hrec : reciprocate (proj self.vertices sphere.center)
        (facetProjections proj self (proj self.vertices sphere.center)) with
    | none => rfl
    | some tl =>
      rw [hrec] at h
      simp at h

/-- A concrete dyad on the line with one vertex at the origin — a facet
(in rank 1, a vertex) passing through the reciprocation center of the
unit sphere at the origin. -/
def centeredDyad : Concrete := ⟨[[0], [1]], Abstract.dyad⟩

/-- C7 witness: reciprocating `centeredDyad` about the origin is absent,
via the characterisation applied at that instance. -/
theorem dual_with_sphere_absence_iff_witness :
    Concrete.dual_with_sphere (fun _ x => x) centeredDyad ⟨[0], 1⟩ = none :=
  ((dual_with_sphere_absence_iff (fun _ x => x) centeredDyad ⟨[0], 1⟩ (by decide)).1).mpr
    ⟨[0], List.mem_cons_self _ _, by norm_num [normSq, pSub, EPS]⟩

/-- C10 witness: the failing reciprocation of `centeredDyad` leaves the
polytope untouched. -/
theorem dual_mut_with_sphere_atomic_witness :
    (Concrete.dual_mut_with_sphere (fun _ x => x) centeredDyad ⟨[0], 1⟩).2 = false ∧
    (Concrete.dual_mut_with_sphere (fun _ x => x) centeredDyad ⟨[0], 1⟩).1 = centeredDyad :=
  have h : (Concrete.dual_mut_with_sphere (fun _ x => x) centeredDyad ⟨[0], 1⟩).2 = false := by
    norm_num [Concrete.dual_mut_with_sphere, facetProjections, centeredDyad, Concrete.rank,
      Concrete.el_count, Abstract.rank, Abstract.dyad, ElementList.minList, ElementList.maxList,
      ElementList.vertices, reciprocate, normSq, pSub, EPS]
  ⟨h, dual_mut_with_sphere_atomic (fun _ x => x) centeredDyad ⟨[0], 1⟩ h⟩

-- ### C8: circumsphere fitting (real-coordinate geometry layer)

/-- A point with real coordinates: `Concrete::circumsphere` compares `f64`
Euclidean norms (square roots), so its vertices are modelled over `ℝ`
rather than over the exact rationals used for the reciprocation layer. -/
abbrev PointR := List ℝ

/-- Coordinatewise difference of real points (`v - o`). -/
def pSubR (v o : PointR) : PointR := List.zipWith (fun a b => a - b) v o

/-- Coordinatewise sum of real points (`o + k * b`). -/
def pAddR (v o : PointR) : PointR := List.zipWith (fun a b => a + b) v o

/-- Scalar multiple of a real point (`k * b`). -/
def pSmulR (k : ℝ) (v : PointR) : PointR := v.map (fun a => k * a)

/-- Models `dot` of two real points. -/
def dotR (v w : PointR) : ℝ := (List.zipWith (fun a b => a * b) v w).sum

/-- Models `norm_squared` of a real point. -/
def normSqR (v : PointR) : ℝ := dotR v v

/-- Models `norm` of a real point: the Euclidean norm, a real square root. -/
noncomputable def normR (v : PointR) : ℝ := Real.sqrt (normSqR v)

/-- The `EPS` tolerance of `Concrete::circumsphere`, `1e-9`, over `ℝ`. -/
noncomputable def EPSR : ℝ := 1 / 1000000000

/-- Models `geometry::Hypersphere` with real coordinates, as returned by
`Concrete::circumsphere`. -/
structure HypersphereR where
  center : PointR
  radius : ℝ

/-- Models the fitting loop of `Concrete::circumsphere`.  The state is the
running center `o` and the running subspace `h`; the subspace type and the
mutating `Subspace::add` live in the repository's geometry module, which is
not part of the provided sources, so they are abstracted as the type `S`
and the function argument `add`: `add h v` returns the updated subspace
together with the new orthonormal basis direction when `v` lies outside
`h`, and no direction when `v` lies inside.  Outside the subspace the
center is displaced by `k * b` with
`k = (normSq(o - v) - normSq(o - v0)) / (2 * dot (v - v0) b)`; inside it,
the loop returns `none` as soon as the distance of the running center to
`v0` and to `v` differ by more than `EPS` in absolute value. -/
noncomputable def circumLoop {S : Type} (add : S → PointR → S × Option PointR)
    (v0 : PointR) : List PointR → PointR → S → Option (PointR × S)
  | [], o, h => some (o, h)
  | v :: vs, o, h =>
    match add h v with
    | (h1, some b) =>
      circumLoop add v0 vs
        (pAddR o (pSmulR ((normSqR (pSubR o v) - normSqR (pSubR o v0)) /
          (2 * dotR (pSubR v v0) b)) b)) h1
    | (h1, none) =>
      if |normR (pSubR o v0) - normR (pSubR o v)| > EPSR then none
      else circumLoop add v0 vs o h1

/-- Models `Concrete::circumsphere`, with `new` abstracting
`Subspace::new` (also from the absent geometry module).  The
`vertices.next().expect(..)` panic on an empty vertex list is modelled as
`none`; on success the sphere has center `o` and radius `‖o - v0‖`. -/
noncomputable def circumsphere {S : Type} (add : S → PointR → S × Option PointR)
    (new : PointR → S) : List PointR → Option HypersphereR
  | [] => none
  | v0 :: vs =>
    match circumLoop add v0 vs v0 (new v0) with
    | none => none
    | some (o, _) => some ⟨o, normR (pSubR o v0)⟩

/-- Splitting the circumsphere fitting loop across a list append. -/
theorem circumLoop_append {S : Type} (add : S → PointR → S × Option PointR) (v0 : PointR)
    (l1 l2 : List PointR) (o : PointR) (h : S) :
    circumLoop add v0 (l1 ++ l2) o h =
      (circumLoop add v0 l1 o h).bind (fun oh => circumLoop add v0 l2 oh.1 oh.2) := by
  induction l1 generalizing o h with
  | nil => simp [circumLoop, Option.bind]
  | cons v vs ih =>
    simp only [List.cons_append, circumLoop]
    cases hadd : add h v with
    | mk h1 ob =>
      cases ob with
      | some b => simpa using ih _ _
      | none =>
        by_cases hc : |normR (pSubR o v0) - normR (pSubR o v)| > EPSR
        · simp [hc, Option.bind]
        · simp [hc, ih]

/-- C8: during circumsphere fitting, when a new vertex `v` lies in the
affine subspace spanned by the vertices seen so far (`add` yields no new
basis direction) but its distance to the running center differs from the
first vertex's distance by more than the absolute epsilon `1e-9`,
`circumsphere` returns absence; and for a vertex outside the subspace,
with new orthogonal basis direction `b`, the running center is displaced
along `b` by `k = (normSq(o-v) - normSq(o-v0)) / (2 * dot (v-v0) b)`.
Stated over the real-coordinate layer, with the absent
`Subspace::new`/`Subspace::add` abstracted as `new`/`add` and the `f64`
norms idealised as real square roots. -/
theorem circumsphere_step {S : Type} (add : S → PointR → S × Option PointR)
    (new : PointR → S) (v0 v : PointR) (pre post : List PointR) (o : PointR) (h h1 : S) :
    (circumLoop add v0 pre v0 (new v0) = some (o, h) →
      add h v = (h1, none) →
      |normR (pSubR o v0) - normR (pSubR o v)| > EPSR →
      circumsphere add new (v0 :: (pre ++ v :: post)) = none) ∧
    (∀ b, add h v = (h1, some b) →
      circumLoop add v0 (v :: post) o h =
        circumLoop add v0 post
          (pAddR o (pSmulR ((normSqR (pSubR o v) - normSqR (pSubR o v0)) /
            (2 * dotR (pSubR v v0) b)) b)) h1) := by
  constructor
  · intro hpre hadd hfar
    simp only [circumsphere, circumLoop_append, hpre, Option.bind]
    simp only [circumLoop]
    rw [hadd]
    simp [hfar]
  · intro b hadd
    simp only [circumLoop]
    rw [hadd]

/-- Degenerate subspace oracle for the witness: every vertex is reported
as lying inside the running subspace. -/
def circumAddIn : Unit → PointR → Unit × Option PointR := fun _ _ => ((), none)

/-- Subspace oracle for the witness: every vertex is reported as lying
outside the running subspace, with new basis direction `[1]`. -/
noncomputable def circumAddOut : Unit → PointR → Unit × Option PointR :=
  fun _ _ => ((), some [1])

/-- C8 witness: with the all-inside oracle, the one-dimensional vertices
`0` and `1` leave the running center at `0` with norm gap `1 > 1e-9`, so
the fit is absent; with the all-outside oracle, one loop step displaces
the center by the stated formula. -/
theorem circumsphere_step_witness :
    circumsphere circumAddIn (fun _ => ()) [[0], [1]] = none ∧
    circumLoop circumAddOut [0] [[2]] [0] () =
      circumLoop circumAddOut [0] []
        (pAddR [0] (pSmulR ((normSqR (pSubR [0] [2]) - normSqR (pSubR [0] [0])) /
          (2 * dotR (pSubR [2] [0]) [1])) [1])) () := by
  constructor
  · refine (circumsphere_step circumAddIn (fun _ => ()) [0] [1] [] [] [0] () ()).1 rfl rfl ?_
    simp [normR, normSqR, dotR, pSubR, EPSR]
    norm_num [Real.sqrt_one]
  · exact (circumsphere_step circumAddOut (fun _ => ()) [0] [2] [] [] [0] () ()).2 [1] rfl
